import Mathlib

/-!
Verification of `set.go`: a shallow embedding of the generic ordered set of
`src/set.go`.

* The element type `T` (Go: `constraints.Ordered`) is a type with a decidable
  strict total order: integers and strings are instances.  Floating point
  elements are outside the embedding (a NaN is not equal to itself and is not
  ordered by `<`).
* A Go `map[K]V` is a finite list of entries, one per key.  The order of the
  list is the order in which a `range` loop happens to enumerate the map; no
  theorem below depends on it.
* `sort.Slice` is the standard library's sort, determined by the `less`
  function it is handed.
-/

namespace SetGo

/-! ## The Go map -/

/-- The Go type `struct{}`: the marker stored for every member. -/
abbrev EmptyStruct := Unit

/-- A Go `map[K]V`: its entries, in the order a `range` loop enumerates them. -/
structure GoMap (K : Type) (V : Type) where
  entries : List (K × V)
deriving DecidableEq, Repr

namespace GoMap

variable {K V : Type} [DecidableEq K]

/-- Go `make(map[K]V)`: the map without entries. -/
def make : GoMap K V := ⟨[]⟩

/-- The entries of `m[k] = v`: the entry of `k` is overwritten where it stands,
a new key gets a new entry. -/
def assignEntries (k : K) (v : V) : List (K × V) → List (K × V)
  | [] => [(k, v)]
  | e :: rest => if e.1 = k then (k, v) :: rest else e :: assignEntries k v rest

/-- Go `m[k] = v`. -/
def assign (m : GoMap K V) (k : K) (v : V) : GoMap K V :=
  ⟨assignEntries k v m.entries⟩

/-- Go `delete(m, k)`: the entry of `k` is removed, absent keys are ignored. -/
def delete (m : GoMap K V) (k : K) : GoMap K V :=
  ⟨m.entries.filter (fun e => decide (e.1 ≠ k))⟩

/-- Go `v, found := m[k]`: the value stored for `k`, if any. -/
def lookup (m : GoMap K V) (k : K) : Option V :=
  (m.entries.find? (fun e => decide (e.1 = k))).map Prod.snd

/-- Go `len(m)`. -/
def len (m : GoMap K V) : Nat := m.entries.length

/-- The keys in the order `for t := range m` enumerates them. -/
def rangeKeys (m : GoMap K V) : List K := m.entries.map Prod.fst

end GoMap

/-! ## `sort.Slice` -/

/-- One insertion step of the sort: `x` goes before the first element it is
`less` than. -/
def insertLess {T : Type} (less : T → T → Bool) (x : T) : List T → List T
  | [] => [x]
  | y :: ys => if less x y then x :: y :: ys else y :: insertLess less x ys

/-- Go `sort.Slice(results, less)`, as an insertion sort by `less`. -/
def sortSlice {T : Type} (less : T → T → Bool) : List T → List T
  | [] => []
  | x :: xs => insertLess less x (sortSlice less xs)

/-! ## `StandardSet` -/

/-- Go `type StandardSet[T] struct { contents map[T]any }`. -/
structure StandardSet (T : Type) where
  contents : GoMap T EmptyStruct
deriving DecidableEq, Repr

variable {T : Type} [LinearOrder T]

/-- Go `NewStandardSet`. -/
def NewStandardSet : StandardSet T :=
  { contents := GoMap.make }

namespace StandardSet

/-- Go `(*StandardSet).Add`: every argument is written to the map in turn. -/
def Add (s : StandardSet T) (t : List T) : StandardSet T :=
  t.foldl (fun acc tmp => { contents := acc.contents.assign tmp () }) s

/-- Go `(*StandardSet).Drop`: every argument is deleted from the map in turn. -/
def Drop (s : StandardSet T) (t : List T) : StandardSet T :=
  t.foldl (fun acc tmp => { contents := acc.contents.delete tmp }) s

/-- The body of `Slice` when the `range` loop enumerates the keys in the order
`enum`: the keys are appended one by one to `results`, which is then sorted by
`results[i] < results[j]`. -/
def sliceOf (enum : List T) : List T :=
  let results := enum.foldl (fun results t => results ++ [t]) []
  sortSlice (fun a b => decide (a < b)) results

/-- Go `(*StandardSet).Slice`. -/
def Slice (s : StandardSet T) : List T :=
  sliceOf s.contents.rangeKeys

/-- Go `(*StandardSet).Reset`: the returned slice and the set afterwards. -/
def Reset (s : StandardSet T) : List T × StandardSet T :=
  let contents := s.Slice
  (contents, { contents := GoMap.make })

/-- Go `(*StandardSet).Contains`. -/
def Contains (s : StandardSet T) (t : T) : Bool :=
  (s.contents.lookup t).isSome

end StandardSet

/-! ## Sequences of calls -/

/-- A call of one of the five methods of the `Set` interface. -/
inductive Call (T : Type) where
  | Add (t : List T)
  | Drop (t : List T)
  | Slice
  | Contains (t : T)
  | Reset
deriving Repr

/-- What a call returns. -/
inductive Ret (T : Type) where
  | none
  | slice (r : List T)
  | bool (b : Bool)
deriving DecidableEq, Repr

/-- One call on a `StandardSet`: the returned value and the set afterwards. -/
def StandardSet.call (s : StandardSet T) : Call T → Ret T × StandardSet T
  | .Add t => (.none, s.Add t)
  | .Drop t => (.none, s.Drop t)
  | .Slice => (.slice s.Slice, s)
  | .Contains t => (.bool (s.Contains t), s)
  | .Reset => (.slice s.Reset.1, s.Reset.2)

/-- The set after a sequence of calls. -/
def StandardSet.run (s : StandardSet T) (calls : List (Call T)) : StandardSet T :=
  calls.foldl (fun acc c => (acc.call c).2) s

/-! ## Words of the specification -/

/-- The specification's "sorted ascending with duplicates removed". -/
def sortedDistinct (xs : List T) : List T :=
  (xs.dedup).insertionSort (· ≤ ·)

/-- The values returned by a sequence of calls on a `StandardSet`, in order. -/
def StandardSet.trace (s : StandardSet T) : List (Call T) → List (Ret T)
  | [] => []
  | c :: cs => (s.call c).1 :: StandardSet.trace (s.call c).2 cs

/-! ## The sets as Go runs them: nil maps, nil pointers and the lock

`StandardSet` above is a set whose map has been made.  The definitions of
this section keep what Go allows besides: the map in `contents` and the
pointer in `set` may be nil, a write to a nil map and a read through a nil
pointer panic, and a lock that is held makes the caller wait. -/

namespace Runtime

/-- The ways a call does not return normally. -/
inductive Fault where
  /-- Go `panic: assignment to entry in nil map`. -/
  | nilMapAssign
  /-- Go `panic: invalid memory address or nil pointer dereference`. -/
  | nilDeref
  /-- The lock is held and nobody else runs: the call waits forever. -/
  | blocked
  /-- Go `fatal error: sync: Unlock of unlocked RWMutex` and its `RUnlock` twin. -/
  | unlockOfUnlocked
deriving DecidableEq, Repr

/-- A Go slice value `[]T`: the nil slice, or a slice that has been made. -/
inductive GoSlice (α : Type) where
  | nil
  | made (elems : List α)
deriving DecidableEq, Repr

/-- The elements of a slice; the nil slice has none. -/
def GoSlice.elems {α : Type} : GoSlice α → List α
  | .nil => []
  | .made l => l

/-- Go `len(x)` of a slice. -/
def GoSlice.len {α : Type} (x : GoSlice α) : Nat := x.elems.length

/-- Go `append(x, t)`: the result is never nil. -/
def GoSlice.append {α : Type} : GoSlice α → α → GoSlice α
  | .nil, t => .made [t]
  | .made l, t => .made (l ++ [t])

/-- Go `sort.Slice(x, less)` on a slice value: a nil slice stays nil. -/
def GoSlice.sort {α : Type} (less : α → α → Bool) : GoSlice α → GoSlice α
  | .nil => .nil
  | .made l => .made (sortSlice less l)

/-- Go `sync.RWMutex`: whether a writer holds it and how many readers do. -/
structure RWMutex where
  writer : Bool
  readers : Nat
deriving DecidableEq, Repr

/-- The zero value of `sync.RWMutex`: unlocked. -/
def RWMutex.zero : RWMutex := { writer := false, readers := 0 }

/-- Go `mutex.Lock()`: waits until no reader and no writer holds the lock. -/
def RWMutex.Lock (m : RWMutex) : Except Fault RWMutex :=
  if m.writer || m.readers != 0 then .error .blocked
  else .ok { writer := true, readers := m.readers }

/-- Go `mutex.Unlock()`: a fatal error when no writer holds the lock. -/
def RWMutex.Unlock (m : RWMutex) : Except Fault RWMutex :=
  if m.writer then .ok { writer := false, readers := m.readers }
  else .error .unlockOfUnlocked

/-- Go `mutex.RLock()`: waits while a writer holds the lock. -/
def RWMutex.RLock (m : RWMutex) : Except Fault RWMutex :=
  if m.writer then .error .blocked
  else .ok { writer := m.writer, readers := m.readers + 1 }

/-- Go `mutex.RUnlock()`: a fatal error when no reader holds the lock. -/
def RWMutex.RUnlock (m : RWMutex) : Except Fault RWMutex :=
  if m.readers = 0 then .error .unlockOfUnlocked
  else .ok { writer := m.writer, readers := m.readers - 1 }

/-- Go `type StandardSet[T] struct { contents map[T]any }`, where `contents`
may hold the nil map (`none`), as in the zero value `StandardSet[T]{}`. -/
structure StandardSet (T : Type) where
  contents : Option (GoMap T EmptyStruct)
deriving DecidableEq, Repr

/-- Go `NewStandardSet`: a non-nil `*StandardSet[T]` whose map has been made.
A `*StandardSet[T]` is `none` for the nil pointer. -/
def NewStandardSet : Option (StandardSet T) :=
  some { contents := some GoMap.make }

/-- Go `(*StandardSet).Add`: each turn of the loop reads `s.contents` and
writes one entry. -/
def StandardSet.Add (s : Option (StandardSet T)) : List T → Except Fault (Option (StandardSet T))
  | [] => .ok s
  | tmp :: rest =>
    match s with
    | none => .error .nilDeref
    | some obj =>
      match obj.contents with
      | none => .error .nilMapAssign
      | some m => StandardSet.Add (some { contents := some (m.assign tmp ()) }) rest

/-- Go `(*StandardSet).Drop`: `delete` on a nil map does nothing. -/
def StandardSet.Drop (s : Option (StandardSet T)) : List T → Except Fault (Option (StandardSet T))
  | [] => .ok s
  | tmp :: rest =>
    match s with
    | none => .error .nilDeref
    | some obj =>
      match obj.contents with
      | none => StandardSet.Drop (some { contents := none }) rest
      | some m => StandardSet.Drop (some { contents := some (m.delete tmp) }) rest

/-- Go `(*StandardSet).Slice`: `results` is made with length 0, the keys are
appended and the slice is sorted; a nil map has length 0 and no keys. -/
def StandardSet.Slice (s : Option (StandardSet T)) : Except Fault (GoSlice T) :=
  match s with
  | none => .error .nilDeref
  | some obj =>
    let keys := match obj.contents with
      | none => []
      | some m => m.rangeKeys
    let results := keys.foldl (fun results t => results.append t) (GoSlice.made [])
    .ok (results.sort (fun a b => decide (a < b)))

/-- Go `(*StandardSet).Reset`: the returned slice and the pointer's target
afterwards. -/
def StandardSet.Reset (s : Option (StandardSet T)) :
    Except Fault (GoSlice T × Option (StandardSet T)) :=
  match StandardSet.Slice s with
  | .error f => .error f
  | .ok contents =>
    match s with
    | none => .error .nilDeref
    | some _ => .ok (contents, some { contents := some GoMap.make })

/-- Go `(*StandardSet).Contains`: a lookup in a nil map finds nothing. -/
def StandardSet.Contains (s : Option (StandardSet T)) (t : T) : Except Fault Bool :=
  match s with
  | none => .error .nilDeref
  | some obj =>
    match obj.contents with
    | none => .ok false
    | some m => .ok (m.lookup t).isSome

/-- Go `type ThreadsafeSet[T] struct { mutex sync.RWMutex; set *StandardSet[T] }`. -/
structure ThreadsafeSet (T : Type) where
  mutex : RWMutex
  set : Option (StandardSet T)
deriving DecidableEq, Repr

/-- Go `NewThreadsafeSet`: the mutex has its zero value. -/
def NewThreadsafeSet : ThreadsafeSet T :=
  { mutex := RWMutex.zero, set := NewStandardSet }

/-- Go `(*ThreadsafeSet).Add`: `Lock`, the inner `Add`, the deferred `Unlock`. -/
def ThreadsafeSet.Add (s : ThreadsafeSet T) (t : List T) : Except Fault (ThreadsafeSet T) := do
  let locked ← s.mutex.Lock
  let inner ← StandardSet.Add s.set t
  let unlocked ← locked.Unlock
  pure { mutex := unlocked, set := inner }

/-- Go `(*ThreadsafeSet).Drop`: `Lock`, the inner `Drop`, the deferred `Unlock`. -/
def ThreadsafeSet.Drop (s : ThreadsafeSet T) (t : List T) : Except Fault (ThreadsafeSet T) := do
  let locked ← s.mutex.Lock
  let inner ← StandardSet.Drop s.set t
  let unlocked ← locked.Unlock
  pure { mutex := unlocked, set := inner }

/-- Go `(*ThreadsafeSet).Slice`: `RLock`, the inner `Slice`, the deferred
`RUnlock`. -/
def ThreadsafeSet.Slice (s : ThreadsafeSet T) : Except Fault (GoSlice T × ThreadsafeSet T) := do
  let locked ← s.mutex.RLock
  let r ← StandardSet.Slice s.set
  let unlocked ← locked.RUnlock
  pure (r, { mutex := unlocked, set := s.set })

/-- Go `(*ThreadsafeSet).Contains`: `RLock`, the inner `Contains`, the deferred
`RUnlock`. -/
def ThreadsafeSet.Contains (s : ThreadsafeSet T) (t : T) :
    Except Fault (Bool × ThreadsafeSet T) := do
  let locked ← s.mutex.RLock
  let r ← StandardSet.Contains s.set t
  let unlocked ← locked.RUnlock
  pure (r, { mutex := unlocked, set := s.set })

/-- Go `(*ThreadsafeSet).Reset`: `Lock`, the inner `Reset`, the deferred
`Unlock`. -/
def ThreadsafeSet.Reset (s : ThreadsafeSet T) : Except Fault (GoSlice T × ThreadsafeSet T) := do
  let locked ← s.mutex.Lock
  let r ← StandardSet.Reset s.set
  let unlocked ← locked.Unlock
  pure (r.1, { mutex := unlocked, set := r.2 })

/-- A value of the Go interface `Set[T]`: its dynamic type is `*StandardSet[T]`
or `*ThreadsafeSet[T]`. -/
inductive Set (T : Type) where
  | standard (s : Option (StandardSet T))
  | threadsafe (s : ThreadsafeSet T)
deriving DecidableEq, Repr

/-- Go `NewSet(threadsafe ...bool)`: `threadsafe[0]` is read only when the
length is 1. -/
def NewSet (threadsafe : List Bool) : Set T :=
  if h : threadsafe.length = 1 then
    if threadsafe[0] then .threadsafe NewThreadsafeSet else .standard NewStandardSet
  else .standard NewStandardSet

/-- Go `_, ok := s.(*ThreadsafeSet[T])`. -/
def Set.isThreadsafe {α : Type} : Set α → Bool
  | .standard _ => false
  | .threadsafe _ => true

/-- Go `_, ok := s.(*StandardSet[T])`. -/
def Set.isStandard {α : Type} : Set α → Bool
  | .standard _ => true
  | .threadsafe _ => false

/-- What a call through the interface returns. -/
inductive Ret (T : Type) where
  | none
  | slice (r : GoSlice T)
  | bool (b : Bool)
deriving DecidableEq, Repr

/-- One call through the interface: the returned value and the set afterwards,
or the fault that ends the call. -/
def Set.call : Set T → Call T → Except Fault (Ret T × Set T)
  | .standard s, .Add t => (StandardSet.Add s t).map (fun s1 => (.none, .standard s1))
  | .standard s, .Drop t => (StandardSet.Drop s t).map (fun s1 => (.none, .standard s1))
  | .standard s, .Slice => (StandardSet.Slice s).map (fun r => (.slice r, .standard s))
  | .standard s, .Contains t => (StandardSet.Contains s t).map (fun b => (.bool b, .standard s))
  | .standard s, .Reset => (StandardSet.Reset s).map (fun r => (.slice r.1, .standard r.2))
  | .threadsafe s, .Add t => (s.Add t).map (fun s1 => (.none, .threadsafe s1))
  | .threadsafe s, .Drop t => (s.Drop t).map (fun s1 => (.none, .threadsafe s1))
  | .threadsafe s, .Slice => s.Slice.map (fun r => (.slice r.1, .threadsafe r.2))
  | .threadsafe s, .Contains t => (s.Contains t).map (fun r => (.bool r.1, .threadsafe r.2))
  | .threadsafe s, .Reset => s.Reset.map (fun r => (.slice r.1, .threadsafe r.2))

/-- A sequence of calls through the interface: the returned values in order and
the set afterwards, or the first fault. -/
def Set.run (s : Set T) : List (Call T) → Except Fault (List (Ret T) × Set T)
  | [] => .ok ([], s)
  | c :: cs =>
    match s.call c with
    | .error f => .error f
    | .ok (r, s1) =>
      match Set.run s1 cs with
      | .error f => .error f
      | .ok (rs, s2) => .ok (r :: rs, s2)

/-- A `StandardSet` whose map has been made, behind a non-nil pointer. -/
def ofMade (s : SetGo.StandardSet T) : Option (StandardSet T) :=
  some { contents := some s.contents }

/-- A returned value of the made set, as the interface returns it: a returned
slice is a made slice. -/
def ofRet {α : Type} : SetGo.Ret α → Ret α
  | .none => .none
  | .slice r => .slice (.made r)
  | .bool b => .bool b

/-- The state no call can go wrong from: the map is made, the pointer to the
inner set is not nil, and the lock is free. -/
def Set.Sound {α : Type} : Set α → Bool
  | .standard (some obj) => obj.contents.isSome
  | .standard none => false
  | .threadsafe s =>
    (match s.set with
      | some obj => obj.contents.isSome
      | none => false) && !s.mutex.writer && s.mutex.readers == 0

end Runtime

/-! ## The map: keys, lookup, assignment, deletion -/

section MapLemmas

variable {K V : Type} [DecidableEq K]

theorem GoMap.keys_assignEntries (k : K) (v : V) (l : List (K × V)) :
    (GoMap.assignEntries k v l).map Prod.fst =
      if k ∈ l.map Prod.fst then l.map Prod.fst else l.map Prod.fst ++ [k] := by
  induction l with
  | nil => simp [GoMap.assignEntries]
  | cons e rest ih =>
    by_cases h : e.1 = k
    · simp [GoMap.assignEntries, h]
    · have h2 : ¬ k = e.1 := fun h3 => h h3.symm
      by_cases hm : k ∈ rest.map Prod.fst
      · simp only [GoMap.assignEntries, h, if_false, List.map_cons, ih, hm, if_true,
          List.mem_cons, or_true]
      · simp only [GoMap.assignEntries, h, if_false, List.map_cons, ih, hm,
          List.mem_cons, h2, or_self, List.cons_append]

theorem GoMap.assignEntries_of_mem (k : K) (l : List (K × EmptyStruct))
    (h : k ∈ l.map Prod.fst) : GoMap.assignEntries k () l = l := by
  induction l with
  | nil => simp at h
  | cons e rest ih =>
    by_cases he : e.1 = k
    · simp only [GoMap.assignEntries, he, if_true]
      rw [← he]
    · have h2 : ¬ k = e.1 := fun h3 => he h3.symm
      simp only [List.map_cons, List.mem_cons, h2, false_or] at h
      simp only [GoMap.assignEntries, he, if_false, ih h]

theorem GoMap.assignEntries_of_not_mem (k : K) (v : V) (l : List (K × V))
    (h : k ∉ l.map Prod.fst) : GoMap.assignEntries k v l = l ++ [(k, v)] := by
  induction l with
  | nil => simp [GoMap.assignEntries]
  | cons e rest ih =>
    simp only [List.map_cons, List.mem_cons, not_or] at h
    have he : ¬ e.1 = k := fun h3 => h.1 h3.symm
    simp only [GoMap.assignEntries, he, if_false, ih h.2, List.cons_append]

theorem GoMap.rangeKeys_assign (m : GoMap K V) (k : K) (v : V) :
    (m.assign k v).rangeKeys =
      if k ∈ m.rangeKeys then m.rangeKeys else m.rangeKeys ++ [k] :=
  GoMap.keys_assignEntries k v m.entries

theorem GoMap.rangeKeys_delete (m : GoMap K V) (k : K) :
    (m.delete k).rangeKeys = m.rangeKeys.filter (fun x => decide (x ≠ k)) := by
  simp only [GoMap.delete, GoMap.rangeKeys, List.filter_map]
  rfl

theorem GoMap.lookup_isSome (m : GoMap K V) (k : K) :
    (m.lookup k).isSome = true ↔ k ∈ m.rangeKeys := by
  unfold GoMap.lookup GoMap.rangeKeys
  rw [Option.isSome_map', List.find?_isSome, List.mem_map]
  constructor
  · rintro ⟨e, he, h⟩
    exact ⟨e, he, of_decide_eq_true h⟩
  · rintro ⟨e, he, h⟩
    exact ⟨e, he, decide_eq_true h⟩

theorem GoMap.mem_rangeKeys_assign (m : GoMap K V) (k : K) (v : V) (x : K) :
    x ∈ (m.assign k v).rangeKeys ↔ x = k ∨ x ∈ m.rangeKeys := by
  rw [GoMap.rangeKeys_assign]
  by_cases h : k ∈ m.rangeKeys
  · simp only [h, if_true]
    constructor
    · exact Or.inr
    · rintro (rfl | hx)
      · exact h
      · exact hx
  · simp only [h, if_false, List.mem_append, List.mem_singleton]
    exact or_comm

theorem GoMap.nodup_rangeKeys_assign (m : GoMap K V) (k : K) (v : V)
    (h : m.rangeKeys.Nodup) : (m.assign k v).rangeKeys.Nodup := by
  rw [GoMap.rangeKeys_assign]
  by_cases hk : k ∈ m.rangeKeys
  · simpa only [hk, if_true] using h
  · simp only [hk, if_false]
    exact List.Nodup.append h (List.nodup_singleton k) (by simpa using hk)

theorem GoMap.nodup_rangeKeys_delete (m : GoMap K V) (k : K)
    (h : m.rangeKeys.Nodup) : (m.delete k).rangeKeys.Nodup := by
  rw [GoMap.rangeKeys_delete]
  exact h.filter _

theorem GoMap.assign_of_mem (m : GoMap K EmptyStruct) (k : K) (h : k ∈ m.rangeKeys) :
    m.assign k () = m := by
  unfold GoMap.assign
  rw [GoMap.assignEntries_of_mem k m.entries h]

theorem GoMap.filter_assignEntries (p : K → Bool) (k : K) (v : V) (l : List (K × V))
    (h : p k = false) :
    (GoMap.assignEntries k v l).filter (fun e => p e.1) = l.filter (fun e => p e.1) := by
  induction l with
  | nil => simp [GoMap.assignEntries, h]
  | cons e rest ih =>
    by_cases he : e.1 = k
    · have h1 : p e.1 = false := by rw [he]; exact h
      simp only [GoMap.assignEntries, he, if_true, List.filter_cons, h, h1]
      rfl
    · simp only [GoMap.assignEntries, he, if_false, List.filter_cons, ih]

end MapLemmas

/-! ## The sort -/

section SortLemmas

theorem insertLess_perm {α : Type} (less : α → α → Bool) (x : α) (l : List α) :
    (insertLess less x l).Perm (x :: l) := by
  induction l with
  | nil => exact List.Perm.refl _
  | cons y ys ih =>
    by_cases h : less x y = true
    · simp only [insertLess, h, if_true]
      exact List.Perm.refl _
    · simp only [insertLess, h]
      exact (List.Perm.cons y ih).trans (List.Perm.swap x y ys)

theorem sortSlice_perm {α : Type} (less : α → α → Bool) (l : List α) :
    (sortSlice less l).Perm l := by
  induction l with
  | nil => exact List.Perm.refl _
  | cons x xs ih =>
    exact (insertLess_perm less x _).trans (List.Perm.cons x ih)

theorem insertLess_sorted (x : T) (l : List T) (h : l.Sorted (· ≤ ·)) :
    (insertLess (fun a b => decide (a < b)) x l).Sorted (· ≤ ·) := by
  induction l with
  | nil => simp [insertLess]
  | cons y ys ih =>
    have hy := List.rel_of_sorted_cons h
    have hys := List.Sorted.of_cons h
    by_cases hxy : x < y
    · simp only [insertLess, hxy, decide_True, if_true]
      refine List.sorted_cons.mpr ⟨?_, h⟩
      intro b hb
      rcases List.mem_cons.mp hb with rfl | hb
      · exact le_of_lt hxy
      · exact le_trans (le_of_lt hxy) (hy b hb)
    · simp only [insertLess, hxy, decide_False]
      refine List.sorted_cons.mpr ⟨?_, ih hys⟩
      intro b hb
      rcases List.mem_cons.mp ((insertLess_perm _ x ys).mem_iff.mp hb) with rfl | hb
      · exact not_lt.mp hxy
      · exact hy b hb

theorem sortSlice_sorted (l : List T) :
    (sortSlice (fun a b => decide (a < b)) l).Sorted (· ≤ ·) := by
  induction l with
  | nil => simp [sortSlice]
  | cons x xs ih => exact insertLess_sorted x _ ih

/-- Any ascending list with the same elements is the result of the sort: the
result does not depend on the sorting algorithm. -/
theorem sortSlice_eq_of_perm_sorted (l r : List T) (hp : r.Perm l)
    (hs : r.Sorted (· ≤ ·)) : sortSlice (fun a b => decide (a < b)) l = r :=
  List.eq_of_perm_of_sorted ((sortSlice_perm _ l).trans hp.symm) (sortSlice_sorted l) hs

theorem sortSlice_congr_perm (l r : List T) (hp : l.Perm r) :
    sortSlice (fun a b => decide (a < b)) l = sortSlice (fun a b => decide (a < b)) r :=
  sortSlice_eq_of_perm_sorted l _ ((sortSlice_perm _ r).trans hp.symm) (sortSlice_sorted r)

end SortLemmas

/-! ## The set: members after each operation -/

section SetLemmas

theorem StandardSet.Add_nil (s : StandardSet T) : s.Add [] = s := rfl

theorem StandardSet.Add_cons (s : StandardSet T) (x : T) (xs : List T) :
    s.Add (x :: xs) = (StandardSet.mk (s.contents.assign x ())).Add xs := rfl

theorem StandardSet.Add_append (s : StandardSet T) (xs ys : List T) :
    s.Add (xs ++ ys) = (s.Add xs).Add ys := by
  unfold StandardSet.Add
  rw [List.foldl_append]

theorem StandardSet.Drop_nil (s : StandardSet T) : s.Drop [] = s := rfl

theorem StandardSet.Drop_cons (s : StandardSet T) (x : T) (xs : List T) :
    s.Drop (x :: xs) = (StandardSet.mk (s.contents.delete x)).Drop xs := rfl

theorem StandardSet.Drop_append (s : StandardSet T) (xs ys : List T) :
    s.Drop (xs ++ ys) = (s.Drop xs).Drop ys := by
  unfold StandardSet.Drop
  rw [List.foldl_append]

theorem StandardSet.Contains_iff (s : StandardSet T) (x : T) :
    s.Contains x = true ↔ x ∈ s.contents.rangeKeys :=
  GoMap.lookup_isSome s.contents x

theorem StandardSet.Contains_eq_false_iff (s : StandardSet T) (x : T) :
    s.Contains x = false ↔ x ∉ s.contents.rangeKeys := by
  rw [← StandardSet.Contains_iff, Bool.not_eq_true]

theorem StandardSet.mem_rangeKeys_Add (s : StandardSet T) (t : List T) (x : T) :
    x ∈ (s.Add t).contents.rangeKeys ↔ x ∈ t ∨ x ∈ s.contents.rangeKeys := by
  induction t generalizing s with
  | nil => simp [StandardSet.Add_nil]
  | cons y ys ih =>
    rw [StandardSet.Add_cons, ih, GoMap.mem_rangeKeys_assign, List.mem_cons]
    constructor
    · rintro (h | h | h)
      · exact Or.inl (Or.inr h)
      · exact Or.inl (Or.inl h)
      · exact Or.inr h
    · rintro ((h | h) | h)
      · exact Or.inr (Or.inl h)
      · exact Or.inl h
      · exact Or.inr (Or.inr h)

theorem StandardSet.rangeKeys_Drop (s : StandardSet T) (t : List T) :
    (s.Drop t).contents.rangeKeys =
      s.contents.rangeKeys.filter (fun x => decide (x ∉ t)) := by
  induction t generalizing s with
  | nil => simp [StandardSet.Drop_nil]
  | cons y ys ih =>
    rw [StandardSet.Drop_cons, ih, GoMap.rangeKeys_delete, List.filter_filter]
    congr 1
    funext x
    simp only [List.mem_cons, not_or, ne_eq, Bool.decide_and, Bool.and_comm]

theorem StandardSet.mem_rangeKeys_Drop (s : StandardSet T) (t : List T) (x : T) :
    x ∈ (s.Drop t).contents.rangeKeys ↔ x ∉ t ∧ x ∈ s.contents.rangeKeys := by
  rw [StandardSet.rangeKeys_Drop, List.mem_filter, decide_eq_true_eq]
  exact and_comm

theorem StandardSet.nodup_Add (s : StandardSet T) (t : List T)
    (h : s.contents.rangeKeys.Nodup) : (s.Add t).contents.rangeKeys.Nodup := by
  induction t generalizing s with
  | nil => exact h
  | cons y ys ih =>
    rw [StandardSet.Add_cons]
    exact ih _ (GoMap.nodup_rangeKeys_assign s.contents y () h)

theorem StandardSet.nodup_Drop (s : StandardSet T) (t : List T)
    (h : s.contents.rangeKeys.Nodup) : (s.Drop t).contents.rangeKeys.Nodup := by
  rw [StandardSet.rangeKeys_Drop]
  exact h.filter _

theorem StandardSet.foldl_append_singleton {α : Type} (acc enum : List α) :
    enum.foldl (fun results t => results ++ [t]) acc = acc ++ enum := by
  induction enum generalizing acc with
  | nil => simp
  | cons y ys ih => simp [ih]

theorem StandardSet.sliceOf_eq (enum : List T) :
    StandardSet.sliceOf enum = sortSlice (fun a b => decide (a < b)) enum := by
  unfold StandardSet.sliceOf
  rw [StandardSet.foldl_append_singleton, List.nil_append]

theorem StandardSet.Slice_eq (s : StandardSet T) :
    s.Slice = sortSlice (fun a b => decide (a < b)) s.contents.rangeKeys :=
  StandardSet.sliceOf_eq _

theorem StandardSet.Slice_perm (s : StandardSet T) :
    s.Slice.Perm s.contents.rangeKeys := by
  rw [StandardSet.Slice_eq]
  exact sortSlice_perm _ _

theorem StandardSet.Slice_sorted_le (s : StandardSet T) :
    s.Slice.Sorted (· ≤ ·) := by
  rw [StandardSet.Slice_eq]
  exact sortSlice_sorted _

theorem StandardSet.mem_Slice (s : StandardSet T) (x : T) :
    x ∈ s.Slice ↔ x ∈ s.contents.rangeKeys :=
  (StandardSet.Slice_perm s).mem_iff

theorem StandardSet.Slice_sorted_lt (s : StandardSet T)
    (h : s.contents.rangeKeys.Nodup) : s.Slice.Sorted (· < ·) :=
  (StandardSet.Slice_sorted_le s).lt_of_le ((StandardSet.Slice_perm s).nodup_iff.mpr h)

/-- Two sets with the same members have the same `Slice`. -/
theorem StandardSet.Slice_congr (s r : StandardSet T)
    (h : s.contents.rangeKeys.Perm r.contents.rangeKeys) : s.Slice = r.Slice := by
  rw [StandardSet.Slice_eq, StandardSet.Slice_eq]
  exact sortSlice_congr_perm _ _ h

theorem StandardSet.nodup_call (s : StandardSet T) (c : Call T)
    (h : s.contents.rangeKeys.Nodup) : (s.call c).2.contents.rangeKeys.Nodup := by
  cases c with
  | Add t => exact StandardSet.nodup_Add s t h
  | Drop t => exact StandardSet.nodup_Drop s t h
  | Slice => exact h
  | Contains t => exact h
  | Reset => exact List.nodup_nil

theorem StandardSet.nodup_run (s : StandardSet T) (calls : List (Call T))
    (h : s.contents.rangeKeys.Nodup) : (s.run calls).contents.rangeKeys.Nodup := by
  induction calls generalizing s with
  | nil => exact h
  | cons c cs ih => exact ih _ (StandardSet.nodup_call s c h)

theorem StandardSet.foldl_Add_eq (s : StandardSet T) (calls : List (List T)) :
    calls.foldl (fun acc t => acc.Add t) s = s.Add calls.flatten := by
  unfold StandardSet.Add
  rw [List.foldl_flatten]

theorem StandardSet.foldl_Add_singleton_eq (s : StandardSet T) (xs : List T) :
    xs.foldl (fun acc x => acc.Add [x]) s = s.Add xs := rfl

theorem StandardSet.rangeKeys_New_Add_perm (xs : List T) :
    ((NewStandardSet : StandardSet T).Add xs).contents.rangeKeys.Perm xs.dedup := by
  refine (List.perm_ext_iff_of_nodup ?_ (List.nodup_dedup xs)).mpr ?_
  · exact StandardSet.nodup_Add _ xs List.nodup_nil
  · intro x
    rw [StandardSet.mem_rangeKeys_Add, List.mem_dedup]
    constructor
    · rintro (h | h)
      · exact h
      · exact absurd h (List.not_mem_nil x)
    · exact Or.inl

theorem StandardSet.Slice_New_Add (xs : List T) :
    ((NewStandardSet : StandardSet T).Add xs).Slice = sortedDistinct xs := by
  rw [StandardSet.Slice_eq]
  refine sortSlice_eq_of_perm_sorted _ _ ?_ (List.sorted_insertionSort _ _)
  exact (List.perm_insertionSort _ _).trans (StandardSet.rangeKeys_New_Add_perm xs).symm

theorem StandardSet.Add_eq_self (s : StandardSet T) (xs : List T)
    (h : ∀ x ∈ xs, x ∈ s.contents.rangeKeys) : s.Add xs = s := by
  induction xs with
  | nil => rfl
  | cons y ys ih =>
    rw [StandardSet.Add_cons, GoMap.assign_of_mem s.contents y (h y (List.mem_cons_self y ys))]
    exact ih (fun x hx => h x (List.mem_cons_of_mem y hx))

theorem StandardSet.entries_Drop (s : StandardSet T) (t : List T) :
    (s.Drop t).contents.entries =
      s.contents.entries.filter (fun e => decide (e.1 ∉ t)) := by
  induction t generalizing s with
  | nil => simp [StandardSet.Drop_nil]
  | cons y ys ih =>
    rw [StandardSet.Drop_cons, ih]
    simp only [GoMap.delete, List.filter_filter]
    congr 1
    funext e
    simp only [List.mem_cons, not_or, ne_eq, Bool.decide_and, Bool.and_comm]

theorem StandardSet.ext_entries {α : Type} (s r : StandardSet α)
    (h : s.contents.entries = r.contents.entries) : s = r := by
  cases s with
  | mk sc =>
    cases r with
    | mk rc =>
      cases sc
      cases rc
      simp only at h
      rw [h]

theorem StandardSet.Drop_eq_self (s : StandardSet T) (xs : List T)
    (h : ∀ x ∈ xs, x ∉ s.contents.rangeKeys) : s.Drop xs = s := by
  apply StandardSet.ext_entries
  rw [StandardSet.entries_Drop, List.filter_eq_self]
  intro e he
  rw [decide_eq_true_eq]
  intro hx
  exact h e.1 hx (List.mem_map_of_mem Prod.fst he)

theorem StandardSet.filter_entries_Add (p : T → Bool) (s : StandardSet T) (xs : List T)
    (h : ∀ x ∈ xs, p x = false) :
    (s.Add xs).contents.entries.filter (fun e => p e.1) =
      s.contents.entries.filter (fun e => p e.1) := by
  induction xs generalizing s with
  | nil => rfl
  | cons y ys ih =>
    rw [StandardSet.Add_cons, ih _ (fun x hx => h x (List.mem_cons_of_mem y hx))]
    exact GoMap.filter_assignEntries p y () s.contents.entries (h y (List.mem_cons_self y ys))

theorem StandardSet.Drop_Add (s : StandardSet T) (xs : List T) :
    (s.Add xs).Drop xs = s.Drop xs := by
  apply StandardSet.ext_entries
  rw [StandardSet.entries_Drop, StandardSet.entries_Drop]
  exact StandardSet.filter_entries_Add (fun x => decide (x ∉ xs)) s xs
    (fun x hx => by simpa using hx)

end SetLemmas

/-! ## The sets as Go runs them: a made set behaves as `StandardSet` -/

section RuntimeLemmas

theorem Refine.Add_ofMade (s : StandardSet T) (t : List T) :
    Runtime.StandardSet.Add (Runtime.ofMade s) t = .ok (Runtime.ofMade (s.Add t)) := by
  induction t generalizing s with
  | nil => rfl
  | cons x xs ih =>
    rw [StandardSet.Add_cons, ← ih]
    rfl

theorem Refine.Drop_ofMade (s : StandardSet T) (t : List T) :
    Runtime.StandardSet.Drop (Runtime.ofMade s) t = .ok (Runtime.ofMade (s.Drop t)) := by
  induction t generalizing s with
  | nil => rfl
  | cons x xs ih =>
    rw [StandardSet.Drop_cons, ← ih]
    rfl

theorem Refine.foldl_append_made {α : Type} (acc enum : List α) :
    enum.foldl (fun results t => Runtime.GoSlice.append results t) (Runtime.GoSlice.made acc)
      = Runtime.GoSlice.made (enum.foldl (fun results t => results ++ [t]) acc) := by
  induction enum generalizing acc with
  | nil => rfl
  | cons y ys ih => exact ih (acc ++ [y])

theorem Refine.Slice_ofMade (s : StandardSet T) :
    Runtime.StandardSet.Slice (Runtime.ofMade s) = .ok (.made s.Slice) := by
  unfold Runtime.StandardSet.Slice Runtime.ofMade
  simp only [Refine.foldl_append_made]
  rfl

theorem Refine.Contains_ofMade (s : StandardSet T) (x : T) :
    Runtime.StandardSet.Contains (Runtime.ofMade s) x = .ok (s.Contains x) := rfl

theorem Refine.Reset_ofMade (s : StandardSet T) :
    Runtime.StandardSet.Reset (Runtime.ofMade s) = .ok (.made s.Reset.1, Runtime.ofMade s.Reset.2) := by
  unfold Runtime.StandardSet.Reset
  rw [Refine.Slice_ofMade]
  rfl

theorem Refine.call_standard (s : StandardSet T) (c : Call T) :
    Runtime.Set.call (.standard (Runtime.ofMade s)) c
      = .ok (Runtime.ofRet (s.call c).1, .standard (Runtime.ofMade (s.call c).2)) := by
  cases c with
  | Add t => simp only [Runtime.Set.call, Refine.Add_ofMade]; rfl
  | Drop t => simp only [Runtime.Set.call, Refine.Drop_ofMade]; rfl
  | Slice => simp only [Runtime.Set.call, Refine.Slice_ofMade]; rfl
  | Contains t => simp only [Runtime.Set.call, Refine.Contains_ofMade]; rfl
  | Reset => simp only [Runtime.Set.call, Refine.Reset_ofMade]; rfl

theorem Refine.call_threadsafe (s : StandardSet T) (c : Call T) :
    Runtime.Set.call (.threadsafe { mutex := Runtime.RWMutex.zero, set := Runtime.ofMade s }) c
      = .ok (Runtime.ofRet (s.call c).1,
          .threadsafe { mutex := Runtime.RWMutex.zero, set := Runtime.ofMade (s.call c).2 }) := by
  cases c with
  | Add t =>
    simp only [Runtime.Set.call, Runtime.ThreadsafeSet.Add, Refine.Add_ofMade]
    rfl
  | Drop t =>
    simp only [Runtime.Set.call, Runtime.ThreadsafeSet.Drop, Refine.Drop_ofMade]
    rfl
  | Slice =>
    simp only [Runtime.Set.call, Runtime.ThreadsafeSet.Slice, Refine.Slice_ofMade]
    rfl
  | Contains t =>
    simp only [Runtime.Set.call, Runtime.ThreadsafeSet.Contains,
      Refine.Contains_ofMade]
    rfl
  | Reset =>
    simp only [Runtime.Set.call, Runtime.ThreadsafeSet.Reset, Refine.Reset_ofMade]
    rfl

theorem StandardSet.run_cons (s : StandardSet T) (c : Call T) (cs : List (Call T)) :
    s.run (c :: cs) = (s.call c).2.run cs := rfl

theorem Refine.run_standard (s : StandardSet T) (calls : List (Call T)) :
    Runtime.Set.run (.standard (Runtime.ofMade s)) calls
      = .ok ((s.trace calls).map Runtime.ofRet, .standard (Runtime.ofMade (s.run calls))) := by
  induction calls generalizing s with
  | nil => rfl
  | cons c cs ih =>
    rw [Runtime.Set.run, Refine.call_standard]
    simp only [ih]
    rfl

theorem Refine.run_threadsafe (s : StandardSet T) (calls : List (Call T)) :
    Runtime.Set.run (.threadsafe { mutex := Runtime.RWMutex.zero, set := Runtime.ofMade s }) calls
      = .ok ((s.trace calls).map Runtime.ofRet,
          .threadsafe { mutex := Runtime.RWMutex.zero, set := Runtime.ofMade (s.run calls) }) := by
  induction calls generalizing s with
  | nil => rfl
  | cons c cs ih =>
    rw [Runtime.Set.run, Refine.call_threadsafe]
    simp only [ih]
    rfl

theorem StandardSet.length_trace (s : StandardSet T) (calls : List (Call T)) :
    (s.trace calls).length = calls.length := by
  induction calls generalizing s with
  | nil => rfl
  | cons c cs ih => simp only [StandardSet.trace, List.length_cons, ih]

theorem Refine.NewSet_cases {α : Type} (flags : List Bool) :
    (Runtime.NewSet flags : Runtime.Set α) = .threadsafe Runtime.NewThreadsafeSet ∨
    (Runtime.NewSet flags : Runtime.Set α) = .standard Runtime.NewStandardSet := by
  unfold Runtime.NewSet
  split
  · split
    · exact Or.inl rfl
    · exact Or.inr rfl
  · exact Or.inr rfl

/-- A sound state is a made set, behind the interface directly or behind a
free lock. -/
theorem Refine.Sound_cases {α : Type} (s : Runtime.Set α) (h : s.Sound = true) :
    ∃ s0 : StandardSet α, s = .standard (Runtime.ofMade s0) ∨
      s = .threadsafe { mutex := Runtime.RWMutex.zero, set := Runtime.ofMade s0 } := by
  cases s with
  | standard p =>
    cases p with
    | none => simp [Runtime.Set.Sound] at h
    | some obj =>
      cases obj with
      | mk contents =>
        cases contents with
        | none => simp [Runtime.Set.Sound] at h
        | some m => exact ⟨⟨m⟩, Or.inl rfl⟩
  | threadsafe ts =>
    cases ts with
    | mk mutex set =>
      cases mutex with
      | mk writer readers =>
        cases set with
        | none => simp [Runtime.Set.Sound] at h
        | some obj =>
          cases obj with
          | mk contents =>
            cases contents with
            | none => simp [Runtime.Set.Sound] at h
            | some m =>
              simp only [Runtime.Set.Sound, Option.isSome_some, Bool.true_and, Bool.and_eq_true,
                Bool.not_eq_true', beq_iff_eq] at h
              obtain ⟨hw, hr⟩ := h
              subst hw
              subst hr
              exact ⟨⟨m⟩, Or.inr rfl⟩

/-- From a sound state every call returns, and leaves a sound state. -/
theorem Refine.call_ok_of_Sound (s : Runtime.Set T) (c : Call T) (h : s.Sound = true) :
    ∃ r s1, s.call c = .ok (r, s1) ∧ s1.Sound = true := by
  obtain ⟨s0, hs | hs⟩ := Refine.Sound_cases s h
  · rw [hs, Refine.call_standard]
    exact ⟨_, _, rfl, rfl⟩
  · rw [hs, Refine.call_threadsafe]
    exact ⟨_, _, rfl, rfl⟩

/-- The faults are possible in the embedding: a write through the zero value
of `StandardSet`, whose map is nil, panics. -/
theorem Refine.call_Add_nil_map (x : T) (xs : List T) :
    Runtime.Set.call (.standard (some { contents := none })) (Call.Add (x :: xs))
      = .error .nilMapAssign := rfl

/-- A call through a `ThreadsafeSet` whose inner pointer is nil panics. -/
theorem Refine.call_Slice_nil_set :
    Runtime.Set.call (.threadsafe { mutex := Runtime.RWMutex.zero, set := none } : Runtime.Set T)
      Call.Slice = .error .nilDeref := rfl

/-- A call on a `ThreadsafeSet` whose lock is held for writing does not return. -/
theorem Refine.call_Add_locked (p : Option (Runtime.StandardSet T)) (t : List T) :
    Runtime.Set.call (.threadsafe { mutex := { writer := true, readers := 0 }, set := p })
      (Call.Add t) = .error .blocked := rfl

end RuntimeLemmas

/-! ## Members after `Add`, whatever the order of the arguments -/

section OrderLemmas

theorem GoMap.count_rangeKeys_assign {K V : Type} [DecidableEq K] (m : GoMap K V) (k : K)
    (v : V) (x : K) :
    (m.assign k v).rangeKeys.count x =
      if x ∈ m.rangeKeys then m.rangeKeys.count x else if x = k then 1 else 0 := by
  rw [GoMap.rangeKeys_assign]
  by_cases hk : k ∈ m.rangeKeys
  · rw [if_pos hk]
    by_cases hx : x ∈ m.rangeKeys
    · rw [if_pos hx]
    · have hxk : ¬ x = k := fun h => hx (h ▸ hk)
      rw [if_neg hx, if_neg hxk]
      exact List.count_eq_zero_of_not_mem hx
  · rw [if_neg hk, List.count_append]
    by_cases hx : x ∈ m.rangeKeys
    · have hxk : ¬ k = x := fun h => hk (h ▸ hx)
      rw [if_pos hx]
      simp [List.count_singleton, hxk]
    · rw [if_neg hx, List.count_eq_zero_of_not_mem hx]
      by_cases hxk : x = k
      · simp [hxk]
      · have hkx : ¬ k = x := fun h => hxk h.symm
        simp [List.count_singleton, hxk, hkx]

theorem StandardSet.count_rangeKeys_Add (s : StandardSet T) (xs : List T) (x : T) :
    (s.Add xs).contents.rangeKeys.count x =
      if x ∈ s.contents.rangeKeys then s.contents.rangeKeys.count x
      else if x ∈ xs then 1 else 0 := by
  induction xs generalizing s with
  | nil =>
    by_cases hx : x ∈ s.contents.rangeKeys
    · simp [StandardSet.Add_nil, hx]
    · simp [StandardSet.Add_nil, hx, List.count_eq_zero_of_not_mem hx]
  | cons y ys ih =>
    rw [StandardSet.Add_cons, ih]
    simp only [GoMap.mem_rangeKeys_assign, GoMap.count_rangeKeys_assign, List.mem_cons]
    by_cases hx : x ∈ s.contents.rangeKeys
    · simp [hx]
    · by_cases hxy : x = y
      · simp [hx, hxy]
      · simp [hx, hxy]

/-- The keys after `Add` depend, up to their order, only on which elements
were added. -/
theorem StandardSet.rangeKeys_Add_perm (s : StandardSet T) (xs ys : List T)
    (h : ∀ x, x ∈ xs ↔ x ∈ ys) :
    (s.Add xs).contents.rangeKeys.Perm (s.Add ys).contents.rangeKeys := by
  rw [List.perm_iff_count]
  intro x
  rw [StandardSet.count_rangeKeys_Add, StandardSet.count_rangeKeys_Add]
  by_cases hx : x ∈ xs
  · simp [hx, (h x).mp hx]
  · have hy : x ∉ ys := fun hy => hx ((h x).mpr hy)
    simp [hx, hy]

theorem StandardSet.run_map_Add (s : StandardSet T) (zs : List T) :
    s.run (zs.map (fun i => Call.Add [i])) = s.Add zs := by
  induction zs generalizing s with
  | nil => rfl
  | cons z zs ih =>
    rw [List.map_cons, StandardSet.run_cons, ih]
    rfl

theorem StandardSet.eq_Slice_of_sorted_of_mem (s : StandardSet T) (l : List T)
    (hn : s.contents.rangeKeys.Nodup) (hl : l.Sorted (· < ·))
    (hm : ∀ x, x ∈ l ↔ x ∈ s.contents.rangeKeys) : l = s.Slice := by
  have hp : l.Perm s.contents.rangeKeys :=
    (List.perm_ext_iff_of_nodup hl.nodup hn).mpr hm
  rw [StandardSet.Slice_eq]
  exact (sortSlice_eq_of_perm_sorted _ l hp hl.le_of_lt).symm

end OrderLemmas

/-! ## Reads through the interface, and the choice of `NewSet` -/

section InterfaceLemmas

theorem Refine.ThreadsafeSet_Slice_state (ts : Runtime.ThreadsafeSet T)
    (r : Runtime.GoSlice T) (ts1 : Runtime.ThreadsafeSet T)
    (h : ts.Slice = .ok (r, ts1)) : ts1 = ts := by
  rcases ts with ⟨⟨w, n⟩, p⟩
  cases w with
  | true => simp [Runtime.ThreadsafeSet.Slice, Runtime.RWMutex.RLock, bind, Except.bind] at h
  | false =>
    cases hs : Runtime.StandardSet.Slice p with
    | error f =>
      simp [Runtime.ThreadsafeSet.Slice, Runtime.RWMutex.RLock, bind, Except.bind, hs] at h
    | ok v =>
      simp [Runtime.ThreadsafeSet.Slice, Runtime.RWMutex.RLock, Runtime.RWMutex.RUnlock, bind,
        Except.bind, hs, pure, Except.pure] at h
      exact h.2.symm

theorem Refine.ThreadsafeSet_Contains_state (ts : Runtime.ThreadsafeSet T) (x : T)
    (r : Bool) (ts1 : Runtime.ThreadsafeSet T)
    (h : ts.Contains x = .ok (r, ts1)) : ts1 = ts := by
  rcases ts with ⟨⟨w, n⟩, p⟩
  cases w with
  | true => simp [Runtime.ThreadsafeSet.Contains, Runtime.RWMutex.RLock, bind, Except.bind] at h
  | false =>
    cases hs : Runtime.StandardSet.Contains p x with
    | error f =>
      simp [Runtime.ThreadsafeSet.Contains, Runtime.RWMutex.RLock, bind, Except.bind, hs] at h
    | ok v =>
      simp [Runtime.ThreadsafeSet.Contains, Runtime.RWMutex.RLock, Runtime.RWMutex.RUnlock,
        bind, Except.bind, hs, pure, Except.pure] at h
      exact h.2.symm

theorem Refine.call_Slice_state (g : Runtime.Set T) (r : Runtime.Ret T) (g1 : Runtime.Set T)
    (h : g.call .Slice = .ok (r, g1)) : g1 = g := by
  cases g with
  | standard p =>
    cases hs : Runtime.StandardSet.Slice p with
    | error f => simp [Runtime.Set.call, Except.map, hs] at h
    | ok v =>
      simp [Runtime.Set.call, Except.map, hs] at h
      exact h.2.symm
  | threadsafe ts =>
    cases hs : ts.Slice with
    | error f => simp [Runtime.Set.call, Except.map, hs] at h
    | ok v =>
      simp [Runtime.Set.call, Except.map, hs] at h
      rw [← h.2, Refine.ThreadsafeSet_Slice_state ts v.1 v.2 hs]

theorem Refine.call_Contains_state (g : Runtime.Set T) (x : T) (r : Runtime.Ret T)
    (g1 : Runtime.Set T) (h : g.call (.Contains x) = .ok (r, g1)) : g1 = g := by
  cases g with
  | standard p =>
    cases hs : Runtime.StandardSet.Contains p x with
    | error f => simp [Runtime.Set.call, Except.map, hs] at h
    | ok v =>
      simp [Runtime.Set.call, Except.map, hs] at h
      exact h.2.symm
  | threadsafe ts =>
    cases hs : ts.Contains x with
    | error f => simp [Runtime.Set.call, Except.map, hs] at h
    | ok v =>
      simp [Runtime.Set.call, Except.map, hs] at h
      rw [← h.2, Refine.ThreadsafeSet_Contains_state ts x v.1 v.2 hs]

theorem Refine.NewSet_two_or_more {α : Type} (a b : Bool) (rest : List Bool) :
    (Runtime.NewSet (a :: b :: rest) : Runtime.Set α) = .standard Runtime.NewStandardSet := by
  simp [Runtime.NewSet]

end InterfaceLemmas

/-! ## The claims -/

section Claims

/-- C1: for every `StandardSet` reached from `NewStandardSet` by a finite
sequence of `Add`, `Drop`, `Reset`, `Slice` and `Contains` calls, `Slice()` is
strictly ascending: every element is less than all later ones, in particular
less than the next. -/
theorem C1_Slice_strictly_ascending (calls : List (Call T)) :
    ((NewStandardSet : StandardSet T).run calls).Slice.Sorted (· < ·) ∧
    ((NewStandardSet : StandardSet T).run calls).Slice.Chain' (· < ·) := by
  have h := StandardSet.Slice_sorted_lt _
    (StandardSet.nodup_run (NewStandardSet : StandardSet T) calls List.nodup_nil)
  exact ⟨h, List.chain'_iff_pairwise.mpr h⟩

/-- C2: an element occurs in `Slice()` if and only if `Contains` reports it:
`Slice()` holds exactly the current members. -/
theorem C2_Slice_mem_iff_Contains (s : StandardSet T) (x : T) :
    x ∈ s.Slice ↔ s.Contains x = true := by
  rw [StandardSet.mem_Slice, StandardSet.Contains_iff]

/-- C3: adding the elements of a list `xs` to a new set, in one `Add` call or
in one call per element, makes `Slice()` the list `xs` sorted ascending with
duplicates removed; adding 0,1,2,3,4 gives `[0,1,2,3,4]`. -/
theorem C3_Slice_after_Add_from_new (xs : List T) :
    ((NewStandardSet : StandardSet T).Add xs).Slice = sortedDistinct xs ∧
    (xs.foldl (fun acc x => acc.Add [x]) (NewStandardSet : StandardSet T)).Slice
      = sortedDistinct xs ∧
    ((NewStandardSet : StandardSet Int).Add [0, 1, 2, 3, 4]).Slice = [0, 1, 2, 3, 4] ∧
    ((((((NewStandardSet : StandardSet Int).Add [0]).Add [1]).Add [2]).Add [3]).Add [4]).Slice
      = [0, 1, 2, 3, 4] := by
  refine ⟨StandardSet.Slice_New_Add xs, ?_, by decide, by decide⟩
  rw [StandardSet.foldl_Add_singleton_eq]
  exact StandardSet.Slice_New_Add xs

/-- C4: after any sequence of `Add` calls on a new set, `Slice()` has no
duplicates, every added value occurs in it exactly once, and its length is the
number of distinct values added. -/
theorem C4_Slice_no_duplicates (calls : List (List T)) :
    (calls.foldl (fun acc t => acc.Add t) (NewStandardSet : StandardSet T)).Slice.Nodup ∧
    (∀ x ∈ calls.flatten,
      (calls.foldl (fun acc t => acc.Add t) (NewStandardSet : StandardSet T)).Slice.count x
        = 1) ∧
    (calls.foldl (fun acc t => acc.Add t) (NewStandardSet : StandardSet T)).Slice.length
      = calls.flatten.toFinset.card := by
  rw [StandardSet.foldl_Add_eq]
  have hp := (StandardSet.Slice_perm ((NewStandardSet : StandardSet T).Add calls.flatten)).trans
    (StandardSet.rangeKeys_New_Add_perm calls.flatten)
  have hn : ((NewStandardSet : StandardSet T).Add calls.flatten).Slice.Nodup :=
    hp.nodup_iff.mpr (List.nodup_dedup _)
  refine ⟨hn, ?_, ?_⟩
  · intro x hx
    exact List.count_eq_one_of_mem hn (hp.mem_iff.mpr (List.mem_dedup.mpr hx))
  · rw [hp.length_eq, List.card_toFinset]

/-- C5: after `Add(xs...)`, `Contains(y)` is true exactly when `y` is one of
`xs` or was contained before; `Contains(x)` is true after `Add(x)`, also when
it was false before, as for 5 on the emptied set of the scenario. -/
theorem C5_Contains_after_Add (s : StandardSet T) (xs : List T) (y : T) :
    ((s.Add xs).Contains y = true ↔ y ∈ xs ∨ s.Contains y = true) ∧
    (s.Add [y]).Contains y = true ∧
    ((((NewStandardSet : StandardSet Int).Add [0, 1, 2, 3, 4]).Add [0, 1, 2, 3, 4]).Drop
        [0, 1, 2, 3, 4]).Contains 5 = false ∧
    (((((NewStandardSet : StandardSet Int).Add [0, 1, 2, 3, 4]).Add [0, 1, 2, 3, 4]).Drop
        [0, 1, 2, 3, 4]).Add [5]).Contains 5 = true := by
  refine ⟨?_, ?_, by decide, by decide⟩
  · rw [StandardSet.Contains_iff, StandardSet.Contains_iff, StandardSet.mem_rangeKeys_Add]
  · rw [StandardSet.Contains_iff, StandardSet.mem_rangeKeys_Add]
    exact Or.inl (List.mem_singleton_self y)

/-- C6: after `Drop(xs...)`, `Contains(y)` is true exactly when `y` is none of
`xs` and was contained before: `Drop` removes the listed elements and no
other. -/
theorem C6_Contains_after_Drop (s : StandardSet T) (xs : List T) (y : T) :
    (s.Drop xs).Contains y = true ↔ y ∉ xs ∧ s.Contains y = true := by
  rw [StandardSet.Contains_iff, StandardSet.Contains_iff, StandardSet.mem_rangeKeys_Drop]

/-- C7: `Reset()` returns what `Slice()` returns just before the call; after
it `Slice()` is empty and `Contains(x)` is false for every `x`. -/
theorem C7_Reset_returns_Slice_and_clears (s : StandardSet T) :
    s.Reset.1 = s.Slice ∧ s.Reset.2.Slice = [] ∧ ∀ x : T, s.Reset.2.Contains x = false :=
  ⟨rfl, rfl, fun _ => rfl⟩

/-- C8: when every element of `xs` is already present, `Add(xs...)` changes
nothing: the set, its `Slice()` and `Contains(y)` for every `y` are as before
(adding 0..4 a second time still gives `[0,1,2,3,4]`); and for any `xs`,
`Add(xs...)` twice leaves the same set as once. -/
theorem C8_Add_present_is_noop (s : StandardSet T) (xs : List T) :
    ((∀ x ∈ xs, s.Contains x = true) →
      s.Add xs = s ∧ (s.Add xs).Slice = s.Slice ∧
        ∀ y : T, (s.Add xs).Contains y = s.Contains y) ∧
    (s.Add xs).Add xs = s.Add xs ∧
    (((NewStandardSet : StandardSet Int).Add [0, 1, 2, 3, 4]).Add [0, 1, 2, 3, 4]).Slice
      = [0, 1, 2, 3, 4] := by
  refine ⟨?_, ?_, by decide⟩
  · intro h
    have he : s.Add xs = s :=
      StandardSet.Add_eq_self s xs (fun x hx => (StandardSet.Contains_iff s x).mp (h x hx))
    rw [he]
    exact ⟨rfl, rfl, fun _ => rfl⟩
  · exact StandardSet.Add_eq_self _ xs
      (fun x hx => (StandardSet.mem_rangeKeys_Add s xs x).mpr (Or.inl hx))

/-- The hypothesis of C8 at a set holding 0, 1, 2 and the arguments 0, 1. -/
theorem C8_Add_present_is_noop_witness :
    (∀ x ∈ [0, 1], ((NewStandardSet : StandardSet Int).Add [0, 1, 2]).Contains x = true) ∧
    ((NewStandardSet : StandardSet Int).Add [0, 1, 2]).Add [0, 1]
      = (NewStandardSet : StandardSet Int).Add [0, 1, 2] :=
  ⟨by decide,
    ((C8_Add_present_is_noop ((NewStandardSet : StandardSet Int).Add [0, 1, 2]) [0, 1]).1
      (by decide)).1⟩

/-- C9: `Drop(x)` of an absent `x` changes nothing: the set, its `Slice()` and
`Contains(y)` for every `y` are as before; and for any `xs`, `Drop(xs...)`
twice leaves the same set as once. -/
theorem C9_Drop_absent_is_noop (s : StandardSet T) (x : T) (xs : List T) :
    (s.Contains x = false →
      s.Drop [x] = s ∧ (s.Drop [x]).Slice = s.Slice ∧
        ∀ y : T, (s.Drop [x]).Contains y = s.Contains y) ∧
    (s.Drop xs).Drop xs = s.Drop xs := by
  constructor
  · intro h
    have he : s.Drop [x] = s := by
      refine StandardSet.Drop_eq_self s [x] (fun y hy => ?_)
      rw [List.mem_singleton.mp hy]
      exact (StandardSet.Contains_eq_false_iff s x).mp h
    rw [he]
    exact ⟨rfl, rfl, fun _ => rfl⟩
  · exact StandardSet.Drop_eq_self _ xs
      (fun y hy hm => ((StandardSet.mem_rangeKeys_Drop s xs y).mp hm).1 hy)

/-- The hypothesis of C9 at a set holding 0, 1, 2 and the absent element 7. -/
theorem C9_Drop_absent_is_noop_witness :
    ((NewStandardSet : StandardSet Int).Add [0, 1, 2]).Contains 7 = false ∧
    ((NewStandardSet : StandardSet Int).Add [0, 1, 2]).Drop [7]
      = (NewStandardSet : StandardSet Int).Add [0, 1, 2] :=
  ⟨by decide,
    ((C9_Drop_absent_is_noop ((NewStandardSet : StandardSet Int).Add [0, 1, 2]) 7 []).1
      (by decide)).1⟩

/-- C10: when the set contains no element of `xs`, `Add(xs...)` followed by
`Drop(xs...)` gives back the set, with the same `Slice()` as before; from the
empty set, adding the elements of `xs` and dropping them leaves `Slice()`
empty, as in the test with 0..4. -/
theorem C10_Add_then_Drop_restores (s : StandardSet T) (xs : List T) :
    ((∀ x ∈ xs, s.Contains x = false) →
      ((s.Add xs).Drop xs).Slice = s.Slice ∧ (s.Add xs).Drop xs = s) ∧
    (((NewStandardSet : StandardSet T).Add xs).Drop xs).Slice = [] ∧
    ((((NewStandardSet : StandardSet Int).Add [0, 1, 2, 3, 4]).Add [0, 1, 2, 3, 4]).Drop
        [0, 1, 2, 3, 4]).Slice = [] := by
  refine ⟨?_, ?_, by decide⟩
  · intro h
    have he : (s.Add xs).Drop xs = s := by
      rw [StandardSet.Drop_Add]
      exact StandardSet.Drop_eq_self s xs
        (fun x hx => (StandardSet.Contains_eq_false_iff s x).mp (h x hx))
    rw [he]
    exact ⟨rfl, rfl⟩
  · rw [StandardSet.Drop_Add]
    have he : (NewStandardSet : StandardSet T).Drop xs = NewStandardSet :=
      StandardSet.Drop_eq_self _ xs (fun x _ hm => List.not_mem_nil x hm)
    rw [he]
    rfl

/-- The hypothesis of C10 at a set holding 5, 6 and the arguments 0, 1, 0. -/
theorem C10_Add_then_Drop_restores_witness :
    (∀ x ∈ [0, 1, 0], ((NewStandardSet : StandardSet Int).Add [5, 6]).Contains x = false) ∧
    ((((NewStandardSet : StandardSet Int).Add [5, 6]).Add [0, 1, 0]).Drop [0, 1, 0]).Slice
      = ((NewStandardSet : StandardSet Int).Add [5, 6]).Slice :=
  ⟨by decide,
    ((C10_Add_then_Drop_restores ((NewStandardSet : StandardSet Int).Add [5, 6]) [0, 1, 0]).1
      (by decide)).1⟩

/-- C11: a set fresh from `NewStandardSet`, `NewThreadsafeSet` or `NewSet` is
empty: `Contains(x)` returns false for every `x`, and `Slice()` returns a
slice that is made, not nil, and has length zero. -/
theorem C11_new_sets_are_empty (x : T) (flags : List Bool) :
    (NewStandardSet : StandardSet T).Contains x = false ∧
    (NewStandardSet : StandardSet T).Slice = [] ∧
    Runtime.StandardSet.Contains (Runtime.NewStandardSet : Option (Runtime.StandardSet T)) x
      = .ok false ∧
    Runtime.StandardSet.Slice (Runtime.NewStandardSet : Option (Runtime.StandardSet T))
      = .ok (.made []) ∧
    (Runtime.NewThreadsafeSet : Runtime.ThreadsafeSet T).Contains x
      = .ok (false, Runtime.NewThreadsafeSet) ∧
    (Runtime.NewThreadsafeSet : Runtime.ThreadsafeSet T).Slice
      = .ok (.made [], Runtime.NewThreadsafeSet) ∧
    (Runtime.NewSet flags : Runtime.Set T).call (.Contains x)
      = .ok (.bool false, Runtime.NewSet flags) ∧
    (Runtime.NewSet flags : Runtime.Set T).call .Slice
      = .ok (.slice (.made []), Runtime.NewSet flags) ∧
    (Runtime.GoSlice.made ([] : List T)).len = 0 ∧
    Runtime.GoSlice.made ([] : List T) ≠ Runtime.GoSlice.nil := by
  refine ⟨rfl, rfl, rfl, rfl, rfl, rfl, ?_, ?_, rfl, fun h => Runtime.GoSlice.noConfusion h⟩
  · rcases @Refine.NewSet_cases T flags with h | h <;> rw [h] <;> rfl
  · rcases @Refine.NewSet_cases T flags with h | h <;> rw [h] <;> rfl

/-- C12: `NewSet()` and `NewSet(false)` return the non-threadsafe variant, a
new `StandardSet`; `NewSet(true)` returns the threadsafe variant, a new
`ThreadsafeSet`. -/
theorem C12_NewSet_selects_variant {α : Type} :
    (Runtime.NewSet [] : Runtime.Set α) = .standard Runtime.NewStandardSet ∧
    (Runtime.NewSet [false] : Runtime.Set α) = .standard Runtime.NewStandardSet ∧
    (Runtime.NewSet [true] : Runtime.Set α) = .threadsafe Runtime.NewThreadsafeSet ∧
    (Runtime.NewSet [] : Runtime.Set α).isStandard = true ∧
    (Runtime.NewSet [false] : Runtime.Set α).isStandard = true ∧
    (Runtime.NewSet [true] : Runtime.Set α).isThreadsafe = true :=
  ⟨rfl, rfl, rfl, rfl, rfl, rfl⟩

/-- C13: under single-threaded use the two variants are observationally
equivalent: every sequence of calls on a new `ThreadsafeSet` and on a new
`StandardSet` runs to its end in both, returns the same values call by call
(those of the made `StandardSet`), and leaves the inner set of the
`ThreadsafeSet` in the state of the `StandardSet`, behind a free lock. -/
theorem C13_variants_observationally_equivalent (calls : List (Call T)) :
    Runtime.Set.run (.standard Runtime.NewStandardSet) calls
      = .ok (((NewStandardSet : StandardSet T).trace calls).map Runtime.ofRet,
          .standard (Runtime.ofMade ((NewStandardSet : StandardSet T).run calls))) ∧
    Runtime.Set.run (.threadsafe Runtime.NewThreadsafeSet) calls
      = .ok (((NewStandardSet : StandardSet T).trace calls).map Runtime.ofRet,
          .threadsafe { mutex := Runtime.RWMutex.zero,
                        set := Runtime.ofMade ((NewStandardSet : StandardSet T).run calls) }) :=
  ⟨Refine.run_standard NewStandardSet calls, Refine.run_threadsafe NewStandardSet calls⟩

/-- C14: `Contains` and `Slice` are pure reads: they leave the set as it was,
so a following `Slice()` or `Contains(y)` returns what it would have returned
without them, through the interface of either variant as well; a call that
returns a value and changes the set is a `Reset`, and `Reset` does change a
set that has members. -/
theorem C14_Contains_and_Slice_are_pure_reads (s : StandardSet T) (x : T) (c : Call T)
    (g g1 : Runtime.Set T) (r : Runtime.Ret T) :
    (s.call (.Contains x)).2 = s ∧ (s.call .Slice).2 = s ∧
    (s.call .Slice).2.Slice = s.Slice ∧
    (∀ y : T, (s.call .Slice).2.Contains y = s.Contains y) ∧
    (s.call (.Contains x)).2.Slice = s.Slice ∧
    (∀ y : T, (s.call (.Contains x)).2.Contains y = s.Contains y) ∧
    ((s.call c).1 ≠ .none → (s.call c).2 ≠ s → c = .Reset) ∧
    (s.contents.entries ≠ [] → (s.call .Reset).2 ≠ s) ∧
    (g.call .Slice = .ok (r, g1) → g1 = g) ∧
    (g.call (.Contains x) = .ok (r, g1) → g1 = g) := by
  refine ⟨rfl, rfl, rfl, fun _ => rfl, rfl, fun _ => rfl, ?_, ?_,
    Refine.call_Slice_state g r g1, Refine.call_Contains_state g x r g1⟩
  · intro h1 h2
    cases c with
    | Add t => exact absurd rfl h1
    | Drop t => exact absurd rfl h1
    | Slice => exact absurd rfl h2
    | Contains t => exact absurd rfl h2
    | Reset => rfl
  · intro h1 h2
    apply h1
    have h3 : (s.call Call.Reset).2.contents.entries = s.contents.entries := by rw [h2]
    exact h3.symm

/-- The premises of C14 at a set holding 1: `Reset` returns a value and empties
the set. -/
theorem C14_Contains_and_Slice_are_pure_reads_witness :
    ((NewStandardSet : StandardSet Int).Add [1]).contents.entries ≠ [] ∧
    (((NewStandardSet : StandardSet Int).Add [1]).call .Reset).2
      ≠ (NewStandardSet : StandardSet Int).Add [1] :=
  ⟨by decide,
    (C14_Contains_and_Slice_are_pure_reads ((NewStandardSet : StandardSet Int).Add [1]) 0
      Call.Reset (.standard Runtime.NewStandardSet) (.standard Runtime.NewStandardSet)
      .none).2.2.2.2.2.2.2.1 (by decide)⟩

/-- C15: no call fails: on a set from `NewSet`, `NewStandardSet` or
`NewThreadsafeSet`, every sequence of `Add`, `Drop`, `Contains`, `Slice` and
`Reset` calls runs to its end, one returned value per call, without panic and
without waiting for the lock; afterwards, hence before every call, the
backing map is made, the wrapper's inner set is not nil and the lock is
free. -/
theorem C15_no_call_fails (flags : List Bool) (calls : List (Call T)) :
    (∃ rets g, Runtime.Set.run (Runtime.NewSet flags : Runtime.Set T) calls = .ok (rets, g) ∧
      rets.length = calls.length ∧ g.Sound = true) ∧
    (∃ rets g, Runtime.Set.run (.standard Runtime.NewStandardSet : Runtime.Set T) calls
        = .ok (rets, g) ∧
      rets.length = calls.length ∧ g.Sound = true) ∧
    (∃ rets g, Runtime.Set.run (.threadsafe Runtime.NewThreadsafeSet : Runtime.Set T) calls
        = .ok (rets, g) ∧
      rets.length = calls.length ∧ g.Sound = true) := by
  have hs : ∃ rets g, Runtime.Set.run (.standard Runtime.NewStandardSet : Runtime.Set T) calls
      = .ok (rets, g) ∧ rets.length = calls.length ∧ g.Sound = true :=
    ⟨_, _, Refine.run_standard NewStandardSet calls,
      by rw [List.length_map, StandardSet.length_trace], rfl⟩
  have ht : ∃ rets g, Runtime.Set.run (.threadsafe Runtime.NewThreadsafeSet : Runtime.Set T)
      calls = .ok (rets, g) ∧ rets.length = calls.length ∧ g.Sound = true :=
    ⟨_, _, Refine.run_threadsafe NewStandardSet calls,
      by rw [List.length_map, StandardSet.length_trace], rfl⟩
  refine ⟨?_, hs, ht⟩
  rcases @Refine.NewSet_cases T flags with h | h
  · rw [h]
    exact ht
  · rw [h]
    exact hs

/-- C17: insertion order is irrelevant: adding the elements of `xs` or of a
permutation `ys` of `xs`, in one call or in single-element calls in list
order, gives the same `Slice()` and the same `Contains`; so the test's ten
`Add` calls on `NewSet(true)` give `[0..9]` in whatever order they run. -/
theorem C17_insertion_order_irrelevant (s : StandardSet T) (xs ys : List T)
    (h : xs.Perm ys) :
    (s.Add xs).Slice = (s.Add ys).Slice ∧
    (∀ x : T, (s.Add xs).Contains x = (s.Add ys).Contains x) ∧
    (xs.foldl (fun acc x => acc.Add [x]) s).Slice
      = (ys.foldl (fun acc x => acc.Add [x]) s).Slice ∧
    (∀ x : T, (xs.foldl (fun acc x => acc.Add [x]) s).Contains x
      = (ys.foldl (fun acc x => acc.Add [x]) s).Contains x) ∧
    (∀ zs : List Int, zs.Perm [0, 1, 2, 3, 4, 5, 6, 7, 8, 9] →
      ∃ rets g, Runtime.Set.run (Runtime.NewSet [true]) (zs.map (fun i => Call.Add [i]))
          = .ok (rets, g) ∧
        g.call .Slice = .ok (.slice (.made [0, 1, 2, 3, 4, 5, 6, 7, 8, 9]), g)) := by
  have hS : (s.Add xs).Slice = (s.Add ys).Slice :=
    StandardSet.Slice_congr _ _ (StandardSet.rangeKeys_Add_perm s xs ys (fun x => h.mem_iff))
  have hC : ∀ x : T, (s.Add xs).Contains x = (s.Add ys).Contains x := by
    intro x
    rw [Bool.eq_iff_iff, StandardSet.Contains_iff, StandardSet.Contains_iff,
      StandardSet.mem_rangeKeys_Add, StandardSet.mem_rangeKeys_Add, h.mem_iff]
  refine ⟨hS, hC, ?_, ?_, ?_⟩
  · rw [StandardSet.foldl_Add_singleton_eq, StandardSet.foldl_Add_singleton_eq]
    exact hS
  · rw [StandardSet.foldl_Add_singleton_eq, StandardSet.foldl_Add_singleton_eq]
    exact hC
  · intro zs hz
    refine ⟨_, _, Refine.run_threadsafe NewStandardSet _, ?_⟩
    rw [Refine.call_threadsafe, StandardSet.run_map_Add]
    have hz2 : ((NewStandardSet : StandardSet Int).Add zs).Slice
        = [0, 1, 2, 3, 4, 5, 6, 7, 8, 9] := by
      rw [StandardSet.Slice_congr _ _
        (StandardSet.rangeKeys_Add_perm NewStandardSet zs [0, 1, 2, 3, 4, 5, 6, 7, 8, 9]
          (fun x => hz.mem_iff))]
      decide
    show Except.ok (Runtime.Ret.slice (Runtime.GoSlice.made
      ((NewStandardSet : StandardSet Int).Add zs).Slice), _) = _
    rw [hz2]
    rfl

/-- The premise of C17 at a set holding 5 and the lists 2, 0, 1 and 0, 1, 2. -/
theorem C17_insertion_order_irrelevant_witness :
    [2, 0, 1].Perm [0, 1, (2 : Int)] ∧
    (((NewStandardSet : StandardSet Int).Add [5]).Add [2, 0, 1]).Slice
      = (((NewStandardSet : StandardSet Int).Add [5]).Add [0, 1, 2]).Slice :=
  ⟨by decide,
    (C17_insertion_order_irrelevant ((NewStandardSet : StandardSet Int).Add [5]) [2, 0, 1]
      [0, 1, 2] (by decide)).1⟩

/-- C18: `Slice()` does not depend on the order in which the `range` loop
enumerates the keys of the map: every enumeration gives the same sorted
sequence, the one strictly ascending list with exactly the map's keys. -/
theorem C18_Slice_independent_of_range_order (s : StandardSet T) (enum : List T)
    (hn : s.contents.rangeKeys.Nodup) (hp : enum.Perm s.contents.rangeKeys) :
    StandardSet.sliceOf enum = s.Slice ∧
    (StandardSet.sliceOf enum).Sorted (· < ·) ∧
    (∀ x : T, x ∈ StandardSet.sliceOf enum ↔ x ∈ s.contents.rangeKeys) ∧
    (∀ l : List T, l.Sorted (· < ·) → (∀ x : T, x ∈ l ↔ x ∈ s.contents.rangeKeys) →
      l = StandardSet.sliceOf enum) := by
  have he : StandardSet.sliceOf enum = s.Slice := by
    rw [StandardSet.sliceOf_eq, StandardSet.Slice_eq]
    exact sortSlice_congr_perm _ _ hp
  rw [he]
  exact ⟨rfl, StandardSet.Slice_sorted_lt s hn, StandardSet.mem_Slice s,
    fun l hl hm => StandardSet.eq_Slice_of_sorted_of_mem s l hn hl hm⟩

/-- The premises of C18 at the map with keys 2, 0, 1 enumerated as 1, 2, 0. -/
theorem C18_Slice_independent_of_range_order_witness :
    ((NewStandardSet : StandardSet Int).Add [2, 0, 1]).contents.rangeKeys.Nodup ∧
    [1, 2, 0].Perm ((NewStandardSet : StandardSet Int).Add [2, 0, 1]).contents.rangeKeys ∧
    StandardSet.sliceOf [1, 2, (0 : Int)]
      = ((NewStandardSet : StandardSet Int).Add [2, 0, 1]).Slice :=
  ⟨by decide, by decide,
    (C18_Slice_independent_of_range_order ((NewStandardSet : StandardSet Int).Add [2, 0, 1])
      [1, 2, 0] (by decide) (by decide)).1⟩

/-- C19: a variadic call is the sequence of single-element calls:
`Add(xs ++ ys)` leaves the state of `Add(xs...)` then `Add(ys...)`,
`Add(x1,...,xn)` the state of `Add(x1)`; ...; `Add(xn)`, likewise for `Drop`;
`Add()` and `Drop()` leave the set unchanged. -/
theorem C19_variadic_call_is_sequence_of_calls (s : StandardSet T) (xs ys : List T) :
    s.Add (xs ++ ys) = (s.Add xs).Add ys ∧
    s.Add xs = xs.foldl (fun acc x => acc.Add [x]) s ∧
    s.Drop (xs ++ ys) = (s.Drop xs).Drop ys ∧
    s.Drop xs = xs.foldl (fun acc x => acc.Drop [x]) s ∧
    s.Add [] = s ∧ s.Drop [] = s :=
  ⟨StandardSet.Add_append s xs ys, rfl, StandardSet.Drop_append s xs ys, rfl, rfl, rfl⟩

/-- C20: `NewSet` returns the threadsafe variant exactly when it is given one
flag and that flag is true; with two or more flags, whatever their values, as
in `NewSet(true, true)`, it returns a new `StandardSet`. -/
theorem C20_NewSet_threadsafe_iff_single_true {α : Type} (flags : List Bool) :
    ((Runtime.NewSet flags : Runtime.Set α).isThreadsafe = true ↔ flags = [true]) ∧
    ((Runtime.NewSet flags : Runtime.Set α) = .threadsafe Runtime.NewThreadsafeSet
      ↔ flags = [true]) ∧
    (2 ≤ flags.length →
      (Runtime.NewSet flags : Runtime.Set α) = .standard Runtime.NewStandardSet) ∧
    (Runtime.NewSet [true, true] : Runtime.Set α) = .standard Runtime.NewStandardSet := by
  refine ⟨?_, ?_, ?_, Refine.NewSet_two_or_more true true []⟩
  · match flags with
    | [] => exact ⟨fun h => Bool.noConfusion h, fun h => List.noConfusion h⟩
    | [true] => exact ⟨fun _ => rfl, fun _ => rfl⟩
    | [false] => exact ⟨fun h => Bool.noConfusion h, fun h => by simp at h⟩
    | a :: b :: rest =>
      rw [Refine.NewSet_two_or_more]
      exact ⟨fun h => Bool.noConfusion h, fun h => by simp at h⟩
  · match flags with
    | [] => exact ⟨fun h => Runtime.Set.noConfusion h, fun h => List.noConfusion h⟩
    | [true] => exact ⟨fun _ => rfl, fun _ => rfl⟩
    | [false] => exact ⟨fun h => Runtime.Set.noConfusion h, fun h => by simp at h⟩
    | a :: b :: rest =>
      rw [Refine.NewSet_two_or_more]
      exact ⟨fun h => Runtime.Set.noConfusion h, fun h => by simp at h⟩
  · intro h
    match flags, h with
    | [], h => simp at h
    | [a], h => simp at h
    | a :: b :: rest, _ => exact Refine.NewSet_two_or_more a b rest

/-- The premise of C20 at the flags `true, false, true`. -/
theorem C20_NewSet_threadsafe_iff_single_true_witness :
    2 ≤ [true, false, true].length ∧
    (Runtime.NewSet [true, false, true] : Runtime.Set Int)
      = .standard Runtime.NewStandardSet :=
  ⟨by decide, (C20_NewSet_threadsafe_iff_single_true [true, false, true]).2.2.1 (by decide)⟩

end Claims

end SetGo
